import Mathlib

/-!
# Verification of callonce-go: request-scoped call coalescing and memoization

Shallow embedding of `callonce.go` (package `callonce`): typed keys,
lookups, the per-request `Cache` (a `map[string]any` store guarded by an
RWMutex plus a singleflight group), and the `Get` / `Forget` operations.

Modelling conventions:
* Go generics `Key[T]` / `Get[T]`: every claim exercises a single value
  type, so the development is parametrised by one value type `V` (the
  type-erased `any` store holds `V`).  the Go `%T` type tag that `NewKey`
  bakes into the key string becomes an explicit `typeTag : String`
  argument.
* `fn func() (T, error)` is pure in the scenario of every claim, so a
  computation is a pair `V × Option E` (`none` = nil error).  `Get`
  additionally returns the number of times it invoked the computation,
  incremented exactly where the Go code calls `fn()`.
* A `context.Context` only matters to the code through
  `FromContext(ctx)`, so a context is embedded as `Option (Cache V)`.
* Go map operations become operations on `String → Option V`; the loops
  that write / delete several keys become `List.foldl` over the key
  list, mirroring the source loops statement by statement.
* A Go runtime panic (index out of range) is an explicit `panicked`
  outcome.
* Sequentially (one caller at a time) `c.group.Do(key, body)` simply
  runs `body`; the concurrent behaviour of the singleflight group is
  modelled separately as a small-step transition system below.
-/

namespace Callonce

/-- `Key` from `callonce.go`: a strongly-typed cache key; `name` is the
string `"%T:<name>"` produced by `NewKey`. -/
structure Key where
  name : String
deriving DecidableEq, Repr

/-- `NewKey` from `callonce.go`: `fmt.Sprintf("%T:%s", zero, name)`; the
Go type descriptor `%T` is passed explicitly as `typeTag`. -/
def NewKey (typeTag name : String) : Key :=
  ⟨typeTag ++ ":" ++ name⟩

/-- `Lookup` from `callonce.go`: a `Key` paired with an identifier. -/
structure Lookup where
  key : Key
  identifier : String
deriving DecidableEq, Repr

/-- `L` from `callonce.go`: pair a key with an identifier. -/
def L (key : Key) (identifier : String) : Lookup :=
  ⟨key, identifier⟩

/-- The store-addressing string `l.Key.name + ":" + l.Identifier`
(built inline in `Get` and `Forget`; `getFullKey` in `keys.go`). -/
def getFullKey (l : Lookup) : String :=
  l.key.name ++ ":" ++ l.identifier

/-- The `store map[string]any` field of `Cache`, as a total function to
`Option V` (`none` = key absent). -/
def Store (V : Type) := String → Option V

/-- A single Go map assignment `store[k] = v`. -/
def mapSet {V : Type} (s : Store V) (k : String) (v : V) : Store V :=
  fun x => if x = k then some v else s x

/-- A single Go map deletion `delete(store, k)`. -/
def mapDel {V : Type} (s : Store V) (k : String) : Store V :=
  fun x => if x = k then none else s x

/-- The write loop `for _, k := range keys { store[k] = v }` used both
by the fast-path backfill and by the slow-path store-under-all-keys. -/
def storeAll {V : Type} (s : Store V) (keys : List String) (v : V) : Store V :=
  keys.foldl (fun s k => mapSet s k v) s

/-- The read loop `for _, k := range keys { if v, ok := store[k]; ok {...} }`:
the first stored value among `keys`, scanning in order. -/
def storeScan {V : Type} (s : Store V) : List String → Option V
  | [] => none
  | k :: ks =>
    match s k with
    | some v => some v
    | none => storeScan s ks

/-- `Cache` from `callonce.go`: the mutable state a `Get`/`Forget` call
can observe and change sequentially is the `store` map (the RWMutex and
the singleflight group carry no sequential state). -/
structure Cache (V : Type) where
  store : Store V

/-- Read a store slot through the optional cache of a context. -/
def storeOf {V : Type} (ctx : Option (Cache V)) (k : String) : Option V :=
  match ctx with
  | none => none
  | some c => c.store k

/-- The observable outcome of a `Get` call: a `(value, error)` return,
or a Go runtime panic. -/
inductive GetOut (V E : Type) where
  | ret (value : V) (err : Option E)
  | panicked
deriving DecidableEq, Repr

/-- Result of running `Get`: its return value, the cache afterwards,
and how many times `fn` was invoked. -/
structure GetRes (V E : Type) where
  out : GetOut V E
  cache : Option (Cache V)
  calls : Nat

/-- `Forget` from `callonce.go`: delete the fullKey of every supplied lookup
from the store; no-op when the context carries no cache. -/
def Forget {V : Type} (ctx : Option (Cache V)) (lookups : List Lookup) :
    Option (Cache V) :=
  match ctx with
  | none => none
  | some c => some ⟨lookups.foldl (fun s l => mapDel s (getFullKey l)) c.store⟩

/-- `Get` from `callonce.go`, sequential semantics (no concurrent
caller, so `c.group.Do(cacheKeys[0], body)` runs `body` directly; with
no lookups the Go expression `cacheKeys[0]` panics with index out of
range).  `fn` is the pure computation `(value, error)`. -/
def Get {V E : Type} [Inhabited V] (ctx : Option (Cache V)) (fn : V × Option E)
    (lookups : List Lookup) : GetRes V E :=
  match ctx with
  | none => ⟨.ret fn.1 fn.2, none, 1⟩
  | some c =>
    let cacheKeys := lookups.map getFullKey
    -- Fast path: check if any key is already cached.
    match storeScan c.store cacheKeys with
    | some v =>
      -- Backfill all other keys so future lookups by any identifier hit,
      -- guarded by `len(cacheKeys) > 1`.
      if 1 < cacheKeys.length then
        ⟨.ret v none, some ⟨storeAll c.store cacheKeys v⟩, 0⟩
      else
        ⟨.ret v none, some c, 0⟩
    | none =>
      match cacheKeys with
      | [] => ⟨.panicked, some c, 0⟩   -- cacheKeys[0]: index out of range
      | _k0 :: _ =>
        -- Slow path: singleflight Do body (run directly, sequentially).
        -- Double-check: another goroutine may have cached while we waited.
        match storeScan c.store cacheKeys with
        | some v => ⟨.ret v none, some c, 0⟩
        | none =>
          match fn with
          | (_result, some e) =>
            -- fn failed: Do returns the error; Get returns (zero, err).
            ⟨.ret default (some e), some c, 1⟩
          | (result, none) =>
            -- Store under ALL keys.
            ⟨.ret result none, some ⟨storeAll c.store cacheKeys result⟩, 1⟩

/-- `Event` from `observer.go`: the cache event type. -/
inductive Event where
  | EventHit
  | EventMiss
  | EventDedup
deriving DecidableEq, Repr

/-- `EventData` from `observer.go`: event type, category key name and
identifier of the triggering lookup. -/
structure EventData where
  event : Event
  key : String
  identifier : String
deriving DecidableEq, Repr

/-- The backfill write of the spec: store the found value under every
supplied fullKey that is not already present, leaving present entries
unchanged. -/
def backfillAbsent {V : Type} (s : Store V) (keys : List String) (v : V) : Store V :=
  keys.foldl (fun s k => if (s k).isSome then s else mapSet s k v) s

/-- The read loop over lookups returning the first lookup whose fullKey
is stored, together with its value (the matching lookup names the
category and identifier of the `Hit` event). -/
def lookupScan {V : Type} (s : Store V) : List Lookup → Option (Lookup × V)
  | [] => none
  | l :: ls =>
    match s (getFullKey l) with
    | some v => some (l, v)
    | none => lookupScan s ls

/-- Modelled from the spec: the observer-emitting variant of `Get` is
absent from `src` (only `Cache.emit`, the `Observer`/`Event`/`EventData`
declarations, `WithObserver` and the observer tests are present), so
this definition follows spec §4.2/§4.4: zero lookups invoke `compute`
directly; a fast-path hit emits `Hit` for the matching lookup and
backfills only absent fullKeys; a slow-path miss emits `Miss` for the
first supplied lookup before invoking `compute`; events are delivered
synchronously before `Get` returns, modelled as the ordered event trace
the `On` method of an attached observer receives (no observer ⇒ the trace is
dropped; `Dedup` arises only for concurrent waiters, so never
sequentially). -/
def GetObs {V E : Type} [Inhabited V] (ctx : Option (Cache V)) (fn : V × Option E)
    (lookups : List Lookup) : GetRes V E × List EventData :=
  match ctx with
  | none => (⟨.ret fn.1 fn.2, none, 1⟩, [])
  | some c =>
    match lookups with
    | [] => (⟨.ret fn.1 fn.2, some c, 1⟩, [])
    | l0 :: _ =>
      -- Fast path.
      match lookupScan c.store lookups with
      | some (l, v) =>
        if 1 < lookups.length then
          (⟨.ret v none, some ⟨backfillAbsent c.store (lookups.map getFullKey) v⟩, 0⟩,
            [⟨.EventHit, l.key.name, l.identifier⟩])
        else
          (⟨.ret v none, some c, 0⟩, [⟨.EventHit, l.key.name, l.identifier⟩])
      | none =>
        -- Slow path: coalescing body of the single winning caller.
        match lookupScan c.store lookups with
        | some (l, v) => (⟨.ret v none, some c, 0⟩, [⟨.EventHit, l.key.name, l.identifier⟩])
        | none =>
          match fn with
          | (_result, some e) =>
            (⟨.ret default (some e), some c, 1⟩, [⟨.EventMiss, l0.key.name, l0.identifier⟩])
          | (result, none) =>
            (⟨.ret result none, some ⟨storeAll c.store (lookups.map getFullKey) result⟩, 1⟩,
              [⟨.EventMiss, l0.key.name, l0.identifier⟩])

/-!
## Pointwise characterisations of the store loops
-/

theorem storeAll_apply {V : Type} (keys : List String) (s : Store V) (v : V) (x : String) :
    storeAll s keys v x = if x ∈ keys then some v else s x := by
  induction keys generalizing s with
  | nil => simp [storeAll]
  | cons k ks ih =>
    show storeAll (mapSet s k v) ks v x = _
    rw [ih]
    by_cases hks : x ∈ ks
    · simp [hks]
    · by_cases hk : x = k <;> simp [hks, hk, mapSet]

theorem forgetFold_apply {V : Type} (lookups : List Lookup) (s : Store V) (x : String) :
    (lookups.foldl (fun s l => mapDel s (getFullKey l)) s) x =
      if x ∈ lookups.map getFullKey then none else s x := by
  induction lookups generalizing s with
  | nil => simp
  | cons l ls ih =>
    show (ls.foldl _ (mapDel s (getFullKey l))) x = _
    rw [ih]
    by_cases hls : x ∈ ls.map getFullKey
    · simp [hls]
    · by_cases hl : x = getFullKey l <;> simp [hls, hl, mapDel]

theorem storeScan_of_all_none {V : Type} (s : Store V) (keys : List String)
    (h : ∀ k ∈ keys, s k = none) : storeScan s keys = none := by
  induction keys with
  | nil => rfl
  | cons k ks ih =>
    have hk : s k = none := h k (by simp)
    simp only [storeScan, hk]
    exact ih fun k hk => h k (by simp [hk])

theorem storeScan_append_of_none {V : Type} (s : Store V) (ks1 ks2 : List String)
    (h : ∀ k ∈ ks1, s k = none) :
    storeScan s (ks1 ++ ks2) = storeScan s ks2 := by
  induction ks1 with
  | nil => rfl
  | cons k ks ih =>
    have hk : s k = none := h k (by simp)
    simp only [List.cons_append, storeScan, hk]
    exact ih fun k hk => h k (by simp [hk])

/-!
## Concurrent semantics of `Get` for one shared lookup

Small-step interleaving model of `N` goroutines running
`Get(ctx, fn, l)` against one `Cache`, all with the same single lookup
(so only the one store slot `getFullKey l` is ever touched — the store
is abstracted to that slot) and the same pure computation
`fn = (v, nil)` (the claim presupposes a successful computation).

Faithfulness notes:
* Each region the Go code executes under a lock is one atomic step; the
  windows between locks (after `RUnlock` and before `group.Do`; after
  being admitted as the singleflight winner and before the double-check;
  `fn()` itself, which runs under no lock; between `fn()` returning and
  the store write) are explicit intermediate program counters, so other
  callers may interleave there.
* The singleflight group for the key is either absent or in flight
  (`flight`): a caller reaching `group.Do` becomes the unique winner
  when no call is in flight, otherwise joins as a waiter.  The winner
  retires the group and delivers its outcome to the waiters after its
  body returns; the outcome is fixed at that point, so delivery is one
  atomic step (the order in which real waiters wake cannot change their
  results).
* `calls` counts executions of `fn`, incremented exactly at the step
  that models the `fn()` call of the singleflight winner.
-/

/-- Program counter of one caller running `Get` with a single lookup. -/
inductive PC (V E : Type) where
  | start                     -- about to run the fast-path read
  | entered                   -- fast path missed, about to call group.Do
  | ownerCheck                -- singleflight winner, about to double-check
  | ownerCompute              -- double-check missed, about to run fn()
  | ownerStore                -- fn returned (v, nil), about to write the store
  | ownerResolve (w : V)      -- body returned w, about to retire the group
  | waiting                   -- joined the in-flight call as a waiter
  | done (value : V) (err : Option E)  -- Get returned
deriving DecidableEq, Repr

/-- `p` is the singleflight winner currently holding the group. -/
def isOwner {V E : Type} : PC V E → Prop
  | .ownerCheck => True
  | .ownerCompute => True
  | .ownerStore => True
  | .ownerResolve _ => True
  | _ => False

/-- Global state: per-caller program counters, the one store slot, the
in-flight flag of the singleflight group, and the `fn` call count. -/
structure CState (n : Nat) (V E : Type) where
  pcs : Fin n → PC V E
  store : Option V
  flight : Bool
  calls : Nat

/-- A waiter receives the delivered outcome `(w, nil)`; any other
caller is untouched by the delivery. -/
def waitDone {V E : Type} (p : PC V E) (w : V) : PC V E :=
  match p with
  | .waiting => .done w none
  | p => p

/-- Program counters after the winner `i` retires the group delivering
outcome `(w, nil)`: the winner and every waiter return from `Get`. -/
def resolvePcs {n : Nat} {V E : Type} (pcs : Fin n → PC V E) (i : Fin n) (w : V) :
    Fin n → PC V E :=
  fun j => if j = i then .done w none else waitDone (pcs j) w

/-- One interleaving step of some caller `i`; `v` is the successful
value of the shared computation. -/
inductive Step {n : Nat} {V E : Type} (v : V) :
    CState n V E → CState n V E → Prop where
  | fastHit (s : CState n V E) (i : Fin n) (w : V) :
      s.pcs i = .start → s.store = some w →
      Step v s { s with pcs := Function.update s.pcs i (.done w none) }
  | fastMiss (s : CState n V E) (i : Fin n) :
      s.pcs i = .start → s.store = none →
      Step v s { s with pcs := Function.update s.pcs i .entered }
  | enterOwner (s : CState n V E) (i : Fin n) :
      s.pcs i = .entered → s.flight = false →
      Step v s { s with pcs := Function.update s.pcs i .ownerCheck, flight := true }
  | enterWait (s : CState n V E) (i : Fin n) :
      s.pcs i = .entered → s.flight = true →
      Step v s { s with pcs := Function.update s.pcs i .waiting }
  | checkHit (s : CState n V E) (i : Fin n) (w : V) :
      s.pcs i = .ownerCheck → s.store = some w →
      Step v s { s with pcs := Function.update s.pcs i (.ownerResolve w) }
  | checkMiss (s : CState n V E) (i : Fin n) :
      s.pcs i = .ownerCheck → s.store = none →
      Step v s { s with pcs := Function.update s.pcs i .ownerCompute }
  | compute (s : CState n V E) (i : Fin n) :
      s.pcs i = .ownerCompute →
      Step v s { s with pcs := Function.update s.pcs i .ownerStore, calls := s.calls + 1 }
  | storeWrite (s : CState n V E) (i : Fin n) :
      s.pcs i = .ownerStore →
      Step v s { s with pcs := Function.update s.pcs i (.ownerResolve v), store := some v }
  | resolve (s : CState n V E) (i : Fin n) (w : V) :
      s.pcs i = .ownerResolve w →
      Step v s { s with pcs := resolvePcs s.pcs i w, flight := false }

/-- Reachability under interleaved steps. -/
def CReach {n : Nat} {V E : Type} (v : V) :
    CState n V E → CState n V E → Prop :=
  Relation.ReflTransGen (Step v)

/-- Initial state: every caller about to call `Get`, slot absent, no
call in flight, `fn` never executed. -/
def cInit (n : Nat) (V E : Type) : CState n V E :=
  { pcs := fun _ => .start, store := none, flight := false, calls := 0 }

/-- Case analysis for a property of an updated program counter map. -/
theorem update_cases {n : Nat} {α : Sort _} (f : Fin n → α) (i : Fin n) (q : α)
    (j : Fin n) (P : α → Prop) (h : P (Function.update f i q j)) :
    (j = i ∧ P q) ∨ (j ≠ i ∧ P (f j)) := by
  rcases eq_or_ne j i with rfl | hj
  · rw [Function.update_same] at h; exact Or.inl ⟨rfl, h⟩
  · rw [Function.update_noteq hj] at h; exact Or.inr ⟨hj, h⟩

/-- After a resolve step nobody is an owner anymore. -/
theorem resolvePcs_owner {n : Nat} {V E : Type} {pcs : Fin n → PC V E}
    {i j : Fin n} {w : V} (h : isOwner (resolvePcs pcs i w j)) :
    j ≠ i ∧ isOwner (pcs j) := by
  unfold resolvePcs at h
  rcases eq_or_ne j i with rfl | hj
  · rw [if_pos rfl] at h; exact h.elim
  · rw [if_neg hj] at h
    refine ⟨hj, ?_⟩
    cases hpc : pcs j <;> rw [hpc] at h <;> exact h

/-- A caller that is done after a resolve step either received the
delivered outcome or was already done. -/
theorem resolvePcs_done {n : Nat} {V E : Type} {pcs : Fin n → PC V E}
    {i j : Fin n} {w r : V} {e : Option E}
    (h : resolvePcs pcs i w j = .done r e) :
    (r = w ∧ e = none) ∨ pcs j = .done r e := by
  unfold resolvePcs at h
  rcases eq_or_ne j i with rfl | hj
  · rw [if_pos rfl] at h; cases h; exact Or.inl ⟨rfl, rfl⟩
  · rw [if_neg hj] at h
    cases hpc : pcs j <;> rw [hpc] at h <;> simp only [waitDone] at h <;>
      first
        | (cases h; exact Or.inl ⟨rfl, rfl⟩)
        | exact Or.inr h

/-- A resolve step creates no program counter other than `done`: any
non-`done` shape present afterwards was present before, away from the
winner. -/
theorem resolvePcs_eq_pc {n : Nat} {V E : Type} {pcs : Fin n → PC V E}
    {i j : Fin n} {w : V} {x : PC V E}
    (h : resolvePcs pcs i w j = x) (hx : ∀ (r : V) (e : Option E), x ≠ .done r e) :
    j ≠ i ∧ pcs j = x := by
  unfold resolvePcs at h
  rcases eq_or_ne j i with rfl | hj
  · rw [if_pos rfl] at h; exact absurd h.symm (hx w none)
  · rw [if_neg hj] at h
    refine ⟨hj, ?_⟩
    cases hpc : pcs j <;> rw [hpc] at h <;> simp only [waitDone] at h <;>
      first
        | exact h
        | exact absurd h.symm (hx w none)

/-- Inductive invariant of the concurrent model: the store slot only
ever holds `v` and only after the single `fn` execution; at most one
caller owns the in-flight singleflight call, and only while one is in
flight; the computation runs only from an unresolved state; every
delivered outcome is `(v, nil)`. -/
structure CInv {n : Nat} {V E : Type} (v : V) (s : CState n V E) : Prop where
  storeV : ∀ w, s.store = some w → w = v ∧ s.calls = 1
  ownerFlight : ∀ i, isOwner (s.pcs i) → s.flight = true
  ownerUnique : ∀ i j, isOwner (s.pcs i) → isOwner (s.pcs j) → i = j
  computeZero : ∀ i, s.pcs i = .ownerCompute → s.calls = 0 ∧ s.store = none
  storeCalls : ∀ i, s.pcs i = .ownerStore → s.calls = 1 ∧ s.store = none
  resolveVal : ∀ i w, s.pcs i = .ownerResolve w → w = v ∧ s.store = some v ∧ s.calls = 1
  callsLe : s.calls ≤ 1
  callsTracked : s.calls = 1 → s.store = some v ∨ ∃ j, s.pcs j = .ownerStore
  doneVal : ∀ i r e, s.pcs i = .done r e → r = v ∧ e = none
  noDoneZero : s.calls = 0 → ∀ i r e, s.pcs i ≠ .done r e

/-- The initial state satisfies the invariant. -/
theorem cInit_inv {n : Nat} {V E : Type} (v : V) : CInv v (cInit n V E) := by
  refine ⟨?_, ?_, ?_, ?_, ?_, ?_, ?_, ?_, ?_, ?_⟩ <;>
    simp [cInit, isOwner]

/-- Every step preserves the invariant. -/
theorem step_inv {n : Nat} {V E : Type} {v : V} {s s' : CState n V E}
    (hs : CInv v s) (h : Step v s s') : CInv v s' := by
  cases h with
  | fastHit i w hpc hst =>
    obtain ⟨hwv, hc1⟩ := hs.storeV w hst
    subst hwv
    refine ⟨hs.storeV, ?_, ?_, ?_, ?_, ?_, hs.callsLe, ?_, ?_, ?_⟩
    · intro j hj
      rcases update_cases _ _ _ j isOwner hj with ⟨rfl, hq⟩ | ⟨-, hq⟩
      · exact hq.elim
      · exact hs.ownerFlight j hq
    · intro j k hj hk
      rcases update_cases _ _ _ j isOwner hj with ⟨rfl, hq⟩ | ⟨-, hqj⟩
      · exact hq.elim
      rcases update_cases _ _ _ k isOwner hk with ⟨rfl, hq⟩ | ⟨-, hqk⟩
      · exact hq.elim
      exact hs.ownerUnique j k hqj hqk
    · intro j hj
      rcases update_cases _ _ _ j (· = PC.ownerCompute) hj with ⟨rfl, hq⟩ | ⟨-, hq⟩
      · exact PC.noConfusion hq
      · exact absurd ((hs.computeZero j hq).2.symm.trans hst) (fun hh => Option.noConfusion hh)
    · intro j hj
      rcases update_cases _ _ _ j (· = PC.ownerStore) hj with ⟨rfl, hq⟩ | ⟨-, hq⟩
      · exact PC.noConfusion hq
      · exact absurd ((hs.storeCalls j hq).2.symm.trans hst) (fun hh => Option.noConfusion hh)
    · intro j w' hj
      rcases update_cases _ _ _ j (· = PC.ownerResolve w') hj with ⟨rfl, hq⟩ | ⟨-, hq⟩
      · exact PC.noConfusion hq
      · exact hs.resolveVal j w' hq
    · intro hc
      rcases hs.callsTracked hc with hstv | ⟨j, hj⟩
      · exact Or.inl hstv
      · refine Or.inr ⟨j, ?_⟩
        have hne : j ≠ i := by rintro rfl; rw [hpc] at hj; exact PC.noConfusion hj
        exact (Function.update_noteq hne _ _).trans hj
    · intro j r e hj
      rcases update_cases _ _ _ j (· = PC.done r e) hj with ⟨rfl, hq⟩ | ⟨-, hq⟩
      · cases hq; exact ⟨rfl, rfl⟩
      · exact hs.doneVal j r e hq
    · intro hc
      exact absurd (hc1.symm.trans hc) (by decide)
  | fastMiss i hpc hst =>
    refine ⟨hs.storeV, ?_, ?_, ?_, ?_, ?_, hs.callsLe, ?_, ?_, ?_⟩
    · intro j hj
      rcases update_cases _ _ _ j isOwner hj with ⟨rfl, hq⟩ | ⟨-, hq⟩
      · exact hq.elim
      · exact hs.ownerFlight j hq
    · intro j k hj hk
      rcases update_cases _ _ _ j isOwner hj with ⟨rfl, hq⟩ | ⟨-, hqj⟩
      · exact hq.elim
      rcases update_cases _ _ _ k isOwner hk with ⟨rfl, hq⟩ | ⟨-, hqk⟩
      · exact hq.elim
      exact hs.ownerUnique j k hqj hqk
    · intro j hj
      rcases update_cases _ _ _ j (· = PC.ownerCompute) hj with ⟨rfl, hq⟩ | ⟨-, hq⟩
      · exact PC.noConfusion hq
      · exact hs.computeZero j hq
    · intro j hj
      rcases update_cases _ _ _ j (· = PC.ownerStore) hj with ⟨rfl, hq⟩ | ⟨-, hq⟩
      · exact PC.noConfusion hq
      · exact hs.storeCalls j hq
    · intro j w' hj
      rcases update_cases _ _ _ j (· = PC.ownerResolve w') hj with ⟨rfl, hq⟩ | ⟨-, hq⟩
      · exact PC.noConfusion hq
      · exact hs.resolveVal j w' hq
    · intro hc
      rcases hs.callsTracked hc with hstv | ⟨j, hj⟩
      · exact Or.inl hstv
      · refine Or.inr ⟨j, ?_⟩
        have hne : j ≠ i := by rintro rfl; rw [hpc] at hj; exact PC.noConfusion hj
        exact (Function.update_noteq hne _ _).trans hj
    · intro j r e hj
      rcases update_cases _ _ _ j (· = PC.done r e) hj with ⟨rfl, hq⟩ | ⟨-, hq⟩
      · exact PC.noConfusion hq
      · exact hs.doneVal j r e hq
    · intro hc j r e hj
      rcases update_cases _ _ _ j (· = PC.done r e) hj with ⟨rfl, hq⟩ | ⟨-, hq⟩
      · exact PC.noConfusion hq
      · exact hs.noDoneZero hc j r e hq
  | enterOwner i hpc hfl =>
    have hNoOwner : ∀ j, ¬ isOwner (s.pcs j) := by
      intro j hj
      have hh := hs.ownerFlight j hj
      rw [hfl] at hh
      exact Bool.noConfusion hh
    refine ⟨hs.storeV, ?_, ?_, ?_, ?_, ?_, hs.callsLe, ?_, ?_, ?_⟩
    · intro j _; rfl
    · intro j k hj hk
      rcases update_cases _ _ _ j isOwner hj with ⟨rfl, -⟩ | ⟨-, hqj⟩
      · rcases update_cases _ _ _ k isOwner hk with ⟨rfl, -⟩ | ⟨-, hqk⟩
        · rfl
        · exact absurd hqk (hNoOwner k)
      · exact absurd hqj (hNoOwner j)
    · intro j hj
      rcases update_cases _ _ _ j (· = PC.ownerCompute) hj with ⟨rfl, hq⟩ | ⟨-, hq⟩
      · exact PC.noConfusion hq
      · exact absurd (show isOwner (s.pcs j) by rw [hq]; trivial) (hNoOwner j)
    · intro j hj
      rcases update_cases _ _ _ j (· = PC.ownerStore) hj with ⟨rfl, hq⟩ | ⟨-, hq⟩
      · exact PC.noConfusion hq
      · exact absurd (show isOwner (s.pcs j) by rw [hq]; trivial) (hNoOwner j)
    · intro j w' hj
      rcases update_cases _ _ _ j (· = PC.ownerResolve w') hj with ⟨rfl, hq⟩ | ⟨-, hq⟩
      · exact PC.noConfusion hq
      · exact absurd (show isOwner (s.pcs j) by rw [hq]; trivial) (hNoOwner j)
    · intro hc
      rcases hs.callsTracked hc with hstv | ⟨j, hj⟩
      · exact Or.inl hstv
      · exact absurd (show isOwner (s.pcs j) by rw [hj]; trivial) (hNoOwner j)
    · intro j r e hj
      rcases update_cases _ _ _ j (· = PC.done r e) hj with ⟨rfl, hq⟩ | ⟨-, hq⟩
      · exact PC.noConfusion hq
      · exact hs.doneVal j r e hq
    · intro hc j r e hj
      rcases update_cases _ _ _ j (· = PC.done r e) hj with ⟨rfl, hq⟩ | ⟨-, hq⟩
      · exact PC.noConfusion hq
      · exact hs.noDoneZero hc j r e hq
  | enterWait i hpc hfl =>
    refine ⟨hs.storeV, ?_, ?_, ?_, ?_, ?_, hs.callsLe, ?_, ?_, ?_⟩
    · intro j hj
      rcases update_cases _ _ _ j isOwner hj with ⟨rfl, hq⟩ | ⟨-, hq⟩
      · exact hq.elim
      · exact hs.ownerFlight j hq
    · intro j k hj hk
      rcases update_cases _ _ _ j isOwner hj with ⟨rfl, hq⟩ | ⟨-, hqj⟩
      · exact hq.elim
      rcases update_cases _ _ _ k isOwner hk with ⟨rfl, hq⟩ | ⟨-, hqk⟩
      · exact hq.elim
      exact hs.ownerUnique j k hqj hqk
    · intro j hj
      rcases update_cases _ _ _ j (· = PC.ownerCompute) hj with ⟨rfl, hq⟩ | ⟨-, hq⟩
      · exact PC.noConfusion hq
      · exact hs.computeZero j hq
    · intro j hj
      rcases update_cases _ _ _ j (· = PC.ownerStore) hj with ⟨rfl, hq⟩ | ⟨-, hq⟩
      · exact PC.noConfusion hq
      · exact hs.storeCalls j hq
    · intro j w' hj
      rcases update_cases _ _ _ j (· = PC.ownerResolve w') hj with ⟨rfl, hq⟩ | ⟨-, hq⟩
      · exact PC.noConfusion hq
      · exact hs.resolveVal j w' hq
    · intro hc
      rcases hs.callsTracked hc with hstv | ⟨j, hj⟩
      · exact Or.inl hstv
      · refine Or.inr ⟨j, ?_⟩
        have hne : j ≠ i := by rintro rfl; rw [hpc] at hj; exact PC.noConfusion hj
        exact (Function.update_noteq hne _ _).trans hj
    · intro j r e hj
      rcases update_cases _ _ _ j (· = PC.done r e) hj with ⟨rfl, hq⟩ | ⟨-, hq⟩
      · exact PC.noConfusion hq
      · exact hs.doneVal j r e hq
    · intro hc j r e hj
      rcases update_cases _ _ _ j (· = PC.done r e) hj with ⟨rfl, hq⟩ | ⟨-, hq⟩
      · exact PC.noConfusion hq
      · exact hs.noDoneZero hc j r e hq
  | checkHit i w hpc hst =>
    obtain ⟨hwv, hc1⟩ := hs.storeV w hst
    subst hwv
    have hOwnI : isOwner (s.pcs i) := by rw [hpc]; trivial
    refine ⟨hs.storeV, ?_, ?_, ?_, ?_, ?_, hs.callsLe, ?_, ?_, ?_⟩
    · intro j hj
      rcases update_cases _ _ _ j isOwner hj with ⟨rfl, -⟩ | ⟨-, hq⟩
      · exact hs.ownerFlight j hOwnI
      · exact hs.ownerFlight j hq
    · intro j k hj hk
      rcases update_cases _ _ _ j isOwner hj with ⟨rfl, -⟩ | ⟨hnej, hqj⟩
      · rcases update_cases _ _ _ k isOwner hk with ⟨rfl, -⟩ | ⟨hnek, hqk⟩
        · rfl
        · exact absurd (hs.ownerUnique k j hqk hOwnI) hnek
      · rcases update_cases _ _ _ k isOwner hk with ⟨rfl, -⟩ | ⟨hnek, hqk⟩
        · exact hs.ownerUnique j k hqj hOwnI
        · exact hs.ownerUnique j k hqj hqk
    · intro j hj
      rcases update_cases _ _ _ j (· = PC.ownerCompute) hj with ⟨rfl, hq⟩ | ⟨hne, hq⟩
      · exact PC.noConfusion hq
      · exact absurd (hs.ownerUnique j i (by rw [hq]; trivial) hOwnI) hne
    · intro j hj
      rcases update_cases _ _ _ j (· = PC.ownerStore) hj with ⟨rfl, hq⟩ | ⟨hne, hq⟩
      · exact PC.noConfusion hq
      · exact absurd (hs.ownerUnique j i (by rw [hq]; trivial) hOwnI) hne
    · intro j w' hj
      rcases update_cases _ _ _ j (· = PC.ownerResolve w') hj with ⟨rfl, hq⟩ | ⟨-, hq⟩
      · cases hq; exact ⟨rfl, hst, hc1⟩
      · exact hs.resolveVal j w' hq
    · intro hc
      rcases hs.callsTracked hc with hstv | ⟨j, hj⟩
      · exact Or.inl hstv
      · refine Or.inr ⟨j, ?_⟩
        have hne : j ≠ i := by rintro rfl; rw [hpc] at hj; exact PC.noConfusion hj
        exact (Function.update_noteq hne _ _).trans hj
    · intro j r e hj
      rcases update_cases _ _ _ j (· = PC.done r e) hj with ⟨rfl, hq⟩ | ⟨-, hq⟩
      · exact PC.noConfusion hq
      · exact hs.doneVal j r e hq
    · intro hc
      exact absurd (hc1.symm.trans hc) (by decide)
  | checkMiss i hpc hst =>
    have hOwnI : isOwner (s.pcs i) := by rw [hpc]; trivial
    have hc0 : s.calls = 0 := by
      rcases Nat.eq_zero_or_pos s.calls with h0 | h1
      · exact h0
      · exfalso
        have hc1 : s.calls = 1 := le_antisymm hs.callsLe h1
        rcases hs.callsTracked hc1 with hstv | ⟨j, hj⟩
        · rw [hstv] at hst; exact Option.noConfusion hst
        · have hji : j = i := hs.ownerUnique j i (by rw [hj]; trivial) hOwnI
          rw [hji, hpc] at hj
          exact PC.noConfusion hj
    refine ⟨hs.storeV, ?_, ?_, ?_, ?_, ?_, hs.callsLe, ?_, ?_, ?_⟩
    · intro j hj
      rcases update_cases _ _ _ j isOwner hj with ⟨rfl, -⟩ | ⟨-, hq⟩
      · exact hs.ownerFlight j hOwnI
      · exact hs.ownerFlight j hq
    · intro j k hj hk
      rcases update_cases _ _ _ j isOwner hj with ⟨rfl, -⟩ | ⟨hnej, hqj⟩
      · rcases update_cases _ _ _ k isOwner hk with ⟨rfl, -⟩ | ⟨hnek, hqk⟩
        · rfl
        · exact absurd (hs.ownerUnique k j hqk hOwnI) hnek
      · rcases update_cases _ _ _ k isOwner hk with ⟨rfl, -⟩ | ⟨hnek, hqk⟩
        · exact hs.ownerUnique j k hqj hOwnI
        · exact hs.ownerUnique j k hqj hqk
    · intro j hj
      rcases update_cases _ _ _ j (· = PC.ownerCompute) hj with ⟨rfl, -⟩ | ⟨hne, hq⟩
      · exact ⟨hc0, hst⟩
      · exact absurd (hs.ownerUnique j i (by rw [hq]; trivial) hOwnI) hne
    · intro j hj
      rcases update_cases _ _ _ j (· = PC.ownerStore) hj with ⟨rfl, hq⟩ | ⟨hne, hq⟩
      · exact PC.noConfusion hq
      · exact absurd (hs.ownerUnique j i (by rw [hq]; trivial) hOwnI) hne
    · intro j w' hj
      rcases update_cases _ _ _ j (· = PC.ownerResolve w') hj with ⟨rfl, hq⟩ | ⟨hne, hq⟩
      · exact PC.noConfusion hq
      · exact absurd (hs.ownerUnique j i (by rw [hq]; trivial) hOwnI) hne
    · intro hc
      exact absurd (hc0.symm.trans hc) (by decide)
    · intro j r e hj
      rcases update_cases _ _ _ j (· = PC.done r e) hj with ⟨rfl, hq⟩ | ⟨-, hq⟩
      · exact PC.noConfusion hq
      · exact hs.doneVal j r e hq
    · intro hc j r e hj
      rcases update_cases _ _ _ j (· = PC.done r e) hj with ⟨rfl, hq⟩ | ⟨-, hq⟩
      · exact PC.noConfusion hq
      · exact hs.noDoneZero hc j r e hq
  | compute i hpc =>
    obtain ⟨hc0, hstn⟩ := hs.computeZero i hpc
    have hOwnI : isOwner (s.pcs i) := by rw [hpc]; trivial
    refine ⟨?_, ?_, ?_, ?_, ?_, ?_, ?_, ?_, ?_, ?_⟩
    · intro w hw
      exact absurd (hstn.symm.trans hw) (fun hh => Option.noConfusion hh)
    · intro j hj
      rcases update_cases _ _ _ j isOwner hj with ⟨rfl, -⟩ | ⟨-, hq⟩
      · exact hs.ownerFlight j hOwnI
      · exact hs.ownerFlight j hq
    · intro j k hj hk
      rcases update_cases _ _ _ j isOwner hj with ⟨rfl, -⟩ | ⟨hnej, hqj⟩
      · rcases update_cases _ _ _ k isOwner hk with ⟨rfl, -⟩ | ⟨hnek, hqk⟩
        · rfl
        · exact absurd (hs.ownerUnique k j hqk hOwnI) hnek
      · rcases update_cases _ _ _ k isOwner hk with ⟨rfl, -⟩ | ⟨hnek, hqk⟩
        · exact hs.ownerUnique j k hqj hOwnI
        · exact hs.ownerUnique j k hqj hqk
    · intro j hj
      rcases update_cases _ _ _ j (· = PC.ownerCompute) hj with ⟨rfl, hq⟩ | ⟨hne, hq⟩
      · exact PC.noConfusion hq
      · exact absurd (hs.ownerUnique j i (by rw [hq]; trivial) hOwnI) hne
    · intro j hj
      rcases update_cases _ _ _ j (· = PC.ownerStore) hj with ⟨rfl, -⟩ | ⟨hne, hq⟩
      · refine ⟨?_, hstn⟩
        show s.calls + 1 = 1
        omega
      · exact absurd (hs.ownerUnique j i (by rw [hq]; trivial) hOwnI) hne
    · intro j w' hj
      rcases update_cases _ _ _ j (· = PC.ownerResolve w') hj with ⟨rfl, hq⟩ | ⟨hne, hq⟩
      · exact PC.noConfusion hq
      · exact absurd (hs.ownerUnique j i (by rw [hq]; trivial) hOwnI) hne
    · show s.calls + 1 ≤ 1
      omega
    · intro _
      exact Or.inr ⟨i, Function.update_same _ _ _⟩
    · intro j r e hj
      rcases update_cases _ _ _ j (· = PC.done r e) hj with ⟨rfl, hq⟩ | ⟨-, hq⟩
      · exact PC.noConfusion hq
      · exact hs.doneVal j r e hq
    · intro hc
      have hc' : s.calls + 1 = 0 := hc
      exact absurd hc' (by omega)
  | storeWrite i hpc =>
    obtain ⟨hc1, hstn⟩ := hs.storeCalls i hpc
    have hOwnI : isOwner (s.pcs i) := by rw [hpc]; trivial
    refine ⟨?_, ?_, ?_, ?_, ?_, ?_, hs.callsLe, ?_, ?_, ?_⟩
    · intro w hw
      cases hw; exact ⟨rfl, hc1⟩
    · intro j hj
      rcases update_cases _ _ _ j isOwner hj with ⟨rfl, -⟩ | ⟨-, hq⟩
      · exact hs.ownerFlight j hOwnI
      · exact hs.ownerFlight j hq
    · intro j k hj hk
      rcases update_cases _ _ _ j isOwner hj with ⟨rfl, -⟩ | ⟨hnej, hqj⟩
      · rcases update_cases _ _ _ k isOwner hk with ⟨rfl, -⟩ | ⟨hnek, hqk⟩
        · rfl
        · exact absurd (hs.ownerUnique k j hqk hOwnI) hnek
      · rcases update_cases _ _ _ k isOwner hk with ⟨rfl, -⟩ | ⟨hnek, hqk⟩
        · exact hs.ownerUnique j k hqj hOwnI
        · exact hs.ownerUnique j k hqj hqk
    · intro j hj
      rcases update_cases _ _ _ j (· = PC.ownerCompute) hj with ⟨rfl, hq⟩ | ⟨hne, hq⟩
      · exact PC.noConfusion hq
      · exact absurd (hs.ownerUnique j i (by rw [hq]; trivial) hOwnI) hne
    · intro j hj
      rcases update_cases _ _ _ j (· = PC.ownerStore) hj with ⟨rfl, hq⟩ | ⟨hne, hq⟩
      · exact PC.noConfusion hq
      · exact absurd (hs.ownerUnique j i (by rw [hq]; trivial) hOwnI) hne
    · intro j w' hj
      rcases update_cases _ _ _ j (· = PC.ownerResolve w') hj with ⟨rfl, hq⟩ | ⟨hne, hq⟩
      · cases hq; exact ⟨rfl, rfl, hc1⟩
      · exact absurd (hs.ownerUnique j i (by rw [hq]; trivial) hOwnI) hne
    · intro _
      exact Or.inl rfl
    · intro j r e hj
      rcases update_cases _ _ _ j (· = PC.done r e) hj with ⟨rfl, hq⟩ | ⟨-, hq⟩
      · exact PC.noConfusion hq
      · exact hs.doneVal j r e hq
    · intro hc
      exact absurd (hc1.symm.trans hc) (by decide)
  | resolve i w hpc =>
    obtain ⟨hwv, hstv, hc1⟩ := hs.resolveVal i w hpc
    subst hwv
    have hOwnI : isOwner (s.pcs i) := by rw [hpc]; trivial
    refine ⟨hs.storeV, ?_, ?_, ?_, ?_, ?_, hs.callsLe, ?_, ?_, ?_⟩
    · intro j hj
      obtain ⟨hne, hq⟩ := resolvePcs_owner hj
      exact absurd (hs.ownerUnique j i hq hOwnI) hne
    · intro j k hj _
      obtain ⟨hne, hq⟩ := resolvePcs_owner hj
      exact absurd (hs.ownerUnique j i hq hOwnI) hne
    · intro j hj
      obtain ⟨hne, hq⟩ := resolvePcs_eq_pc hj (fun r e hh => PC.noConfusion hh)
      exact absurd (hs.ownerUnique j i (by rw [hq]; trivial) hOwnI) hne
    · intro j hj
      obtain ⟨hne, hq⟩ := resolvePcs_eq_pc hj (fun r e hh => PC.noConfusion hh)
      exact absurd (hs.ownerUnique j i (by rw [hq]; trivial) hOwnI) hne
    · intro j w' hj
      obtain ⟨hne, hq⟩ := resolvePcs_eq_pc hj (fun r e hh => PC.noConfusion hh)
      exact absurd (hs.ownerUnique j i (by rw [hq]; trivial) hOwnI) hne
    · intro _
      exact Or.inl hstv
    · intro j r e hj
      rcases resolvePcs_done hj with ⟨rfl, rfl⟩ | hq
      · exact ⟨rfl, rfl⟩
      · exact hs.doneVal j r e hq
    · intro hc
      exact absurd (hc1.symm.trans hc) (by decide)

/-- Every state reachable from the initial state satisfies the
invariant. -/
theorem reach_inv {n : Nat} {V E : Type} {v : V} {s : CState n V E}
    (h : CReach v (cInit n V E) s) : CInv v s := by
  induction h with
  | refl => exact cInit_inv v
  | tail _ hstep ih => exact step_inv ih hstep

/-- C1: in every interleaved execution of `N` concurrent callers
issuing `Get` with the same single lookup on one Cache, once all
callers have returned, the computation has been executed exactly once
across all of them and every caller received the identical successful
value. -/
theorem Get_concurrent_compute_once {n : Nat} {V E : Type} (v : V)
    (s : CState n V E) (i : Fin n)
    (hr : CReach v (cInit n V E) s)
    (hdone : ∀ j, ∃ r e, s.pcs j = PC.done r e) :
    s.calls = 1 ∧ s.pcs i = PC.done v none := by
  have hinv := reach_inv hr
  obtain ⟨r, e, hi⟩ := hdone i
  have hc1 : s.calls = 1 := by
    rcases Nat.eq_zero_or_pos s.calls with h0 | h1
    · exact absurd hi (hinv.noDoneZero h0 i r e)
    · exact le_antisymm hinv.callsLe h1
  obtain ⟨hrv, hen⟩ := hinv.doneVal i r e hi
  subst hrv; subst hen
  exact ⟨hc1, hi⟩

/-- The final state of a one-caller execution: fast-path miss, enter
the group as winner, double-check miss, compute, store, resolve. -/
def cWit : CState 1 String String :=
  { pcs := resolvePcs
      (Function.update
        (Function.update
          (Function.update
            (Function.update
              (Function.update (fun _ => PC.start) 0 PC.entered)
              0 PC.ownerCheck)
            0 PC.ownerCompute)
          0 PC.ownerStore)
        0 (PC.ownerResolve "v"))
      0 "v",
    store := some "v", flight := false, calls := 0 + 1 }

/-- C1 witness: the straight-line one-caller execution reaches an
all-done state with exactly one computation and outcome `("v", nil)`. -/
theorem Get_concurrent_compute_once_witness :
    cWit.calls = 1 ∧ cWit.pcs 0 = PC.done "v" none :=
  Get_concurrent_compute_once "v" cWit 0
    (Relation.ReflTransGen.head (Step.fastMiss _ 0 rfl rfl)
      (Relation.ReflTransGen.head (Step.enterOwner _ 0 rfl rfl)
        (Relation.ReflTransGen.head (Step.checkMiss _ 0 rfl rfl)
          (Relation.ReflTransGen.head (Step.compute _ 0 rfl)
            (Relation.ReflTransGen.head (Step.storeWrite _ 0 rfl)
              (Relation.ReflTransGen.head (Step.resolve _ 0 "v" rfl)
                Relation.ReflTransGen.refl))))))
    (by
      intro j
      refine ⟨"v", none, ?_⟩
      have hj : j = 0 := Fin.fin_one_eq_zero j
      subst hj
      rfl)

/-!
## Concrete fixtures used by witnesses and counterexamples
-/

/-- A typed key, as produced by `NewKey[string]("user")`. -/
def kUser : Key := NewKey "string" "user"

/-- Lookup `L(kUser, "1")`; full key `"string:user:1"`. -/
def lu1 : Lookup := L kUser "1"

/-- Lookup `L(kUser, "2")`; full key `"string:user:2"`. -/
def lu2 : Lookup := L kUser "2"

/-- Lookup `L(kUser, "3")`; full key `"string:user:3"`. -/
def lu3 : Lookup := L kUser "3"

/-- A cache holding `"A"` under `lu1` and `"B"` under `lu2`. -/
def cacheAB : Cache String :=
  ⟨fun x => if x = "string:user:1" then some "A"
            else if x = "string:user:2" then some "B" else none⟩

/-- A cache with an empty store, as created by `WithCache`. -/
def cEmpty : Cache String := ⟨fun _ => none⟩

/-!
## Sequential claims
-/

/-- C9: when the context carries no Cache, `Get` invokes the
computation exactly once and returns exactly its value and error,
whatever lookups are supplied; the call leaves nothing cached and emits
no events (the observer-instrumented variant returns an empty trace),
and it never fails because of the missing cache. -/
theorem Get_noCache_direct {V E : Type} [Inhabited V] (fn : V × Option E)
    (lookups : List Lookup) :
    Get (none : Option (Cache V)) fn lookups = ⟨.ret fn.1 fn.2, none, 1⟩ ∧
    GetObs (none : Option (Cache V)) fn lookups = (⟨.ret fn.1 fn.2, none, 1⟩, []) :=
  ⟨rfl, rfl⟩

/-- C2: on a context that carries a Cache, `Get` with zero lookups does
not invoke the computation at all — it panics (the Go expression
`cacheKeys[0]` indexes an empty slice), contradicting
`TestGetZeroLookups` and the spec, which require the computation to be
invoked directly. -/
theorem Get_zeroLookups_panics {V E : Type} [Inhabited V] (c : Cache V)
    (fn : V × Option E) :
    Get (some c) fn [] = ⟨.panicked, some c, 0⟩ :=
  rfl

/-- C6: when the store already contains the fullKey of at least one
supplied lookup — the supplied list splits as `pre ++ l :: post` with
every lookup of `pre` absent and `l` stored — the computation is never
invoked and `Get` returns, with nil error, the value stored under `l`,
the first supplied lookup in the order given whose fullKey is
present. -/
theorem Get_fastPath_first_hit {V E : Type} [Inhabited V] (c : Cache V)
    (fn : V × Option E) (pre post : List Lookup) (l : Lookup) (v : V)
    (hpre : ∀ p ∈ pre, c.store (getFullKey p) = none)
    (hl : c.store (getFullKey l) = some v) :
    (Get (some c) fn (pre ++ l :: post)).out = .ret v none ∧
    (Get (some c) fn (pre ++ l :: post)).calls = 0 := by
  have hscan : storeScan c.store ((pre ++ l :: post).map getFullKey) = some v := by
    rw [List.map_append,
      storeScan_append_of_none _ _ _ (by intro k hk; obtain ⟨p, hp, rfl⟩ := List.mem_map.1 hk; exact hpre p hp)]
    simp [storeScan, hl]
  simp only [Get, hscan]
  split <;> simp

/-- C6 witness: on `cacheAB`, a `Get` whose first lookup `lu3` misses
and whose second lookup `lu2` hits returns the stored value `"B"`
without invoking the computation. -/
theorem Get_fastPath_first_hit_witness :
    (Get (some cacheAB) (("X" : String), (none : Option String)) ([lu3] ++ lu2 :: [lu1])).out
        = .ret "B" none ∧
    (Get (some cacheAB) (("X" : String), (none : Option String)) ([lu3] ++ lu2 :: [lu1])).calls
        = 0 :=
  Get_fastPath_first_hit cacheAB _ [lu3] [lu1] lu2 "B"
    (by intro p hp; simp only [List.mem_singleton] at hp; subst hp; rfl)
    (by rfl)

/-- C4: on a full miss (no supplied fullKey stored, at least one lookup
supplied), a successful computation runs exactly once, its value is
returned with nil error and stored under every supplied fullKey, and a
subsequent `Get` with any single one of those lookups returns the value
with no further invocation and no further store change. -/
theorem Get_fullMiss_stores_all {V E : Type} [Inhabited V] (c : Cache V)
    (lookups : List Lookup) (v : V) (l : Lookup) (fn2 : V × Option E)
    (hne : lookups ≠ [])
    (hmiss : ∀ p ∈ lookups, c.store (getFullKey p) = none)
    (hl : l ∈ lookups) :
    Get (some c) ((v, none) : V × Option E) lookups =
      ⟨.ret v none, some ⟨storeAll c.store (lookups.map getFullKey) v⟩, 1⟩ ∧
    storeAll c.store (lookups.map getFullKey) v (getFullKey l) = some v ∧
    Get (some ⟨storeAll c.store (lookups.map getFullKey) v⟩) fn2 [l] =
      ⟨.ret v none, some ⟨storeAll c.store (lookups.map getFullKey) v⟩, 0⟩ := by
  have hscan : storeScan c.store (lookups.map getFullKey) = none :=
    storeScan_of_all_none _ _
      (by intro k hk; obtain ⟨p, hp, rfl⟩ := List.mem_map.1 hk; exact hmiss p hp)
  have hmem : getFullKey l ∈ lookups.map getFullKey := List.mem_map_of_mem _ hl
  have hstored : storeAll c.store (lookups.map getFullKey) v (getFullKey l) = some v := by
    rw [storeAll_apply]; simp [hmem]
  refine ⟨?_, hstored, ?_⟩
  · obtain ⟨l0, rest, rfl⟩ := List.exists_cons_of_ne_nil hne
    simp only [List.map_cons] at hscan ⊢
    simp [Get, hscan]
  · simp [Get, storeScan, hstored]

/-- C4 witness: a full-miss `Get` on the empty cache with lookups
`[lu1, lu2]` computes `"V"` once, stores it under both fullKeys, and a
subsequent `Get` with `lu2` alone hits without invoking anything. -/
theorem Get_fullMiss_stores_all_witness :
    Get (some cEmpty) (("V", none) : String × Option String) [lu1, lu2] =
      ⟨.ret "V" none, some ⟨storeAll cEmpty.store ([lu1, lu2].map getFullKey) "V"⟩, 1⟩ ∧
    storeAll cEmpty.store ([lu1, lu2].map getFullKey) "V" (getFullKey lu2) = some "V" ∧
    Get (some ⟨storeAll cEmpty.store ([lu1, lu2].map getFullKey) "V"⟩)
        (("X", none) : String × Option String) [lu2] =
      ⟨.ret "V" none, some ⟨storeAll cEmpty.store ([lu1, lu2].map getFullKey) "V"⟩, 0⟩ :=
  Get_fullMiss_stores_all cEmpty [lu1, lu2] "V" lu2 ("X", none)
    (by simp)
    (by intro p hp
        simp only [List.mem_cons, List.mem_singleton, List.not_mem_nil, or_false] at hp
        rcases hp with rfl | rfl <;> rfl)
    (by simp)

/-- C5: a `Get` whose computation is invoked (all supplied fullKeys
absent, at least one lookup) and fails returns that error with the zero
value and leaves the cache literally unchanged; a subsequent `Get` with
the same lookup invokes its computation again and, on success, stores
and returns its value. -/
theorem Get_error_not_cached {V E : Type} [Inhabited V] (c : Cache V)
    (lookups : List Lookup) (r : V) (e : E) (v2 : V) (l : Lookup)
    (hne : lookups ≠ [])
    (hmiss : ∀ p ∈ lookups, c.store (getFullKey p) = none)
    (hl : l ∈ lookups) :
    Get (some c) (r, some e) lookups = ⟨.ret default (some e), some c, 1⟩ ∧
    Get (some c) ((v2, none) : V × Option E) [l] =
      ⟨.ret v2 none, some ⟨storeAll c.store [getFullKey l] v2⟩, 1⟩ ∧
    storeAll c.store [getFullKey l] v2 (getFullKey l) = some v2 := by
  have hscan : storeScan c.store (lookups.map getFullKey) = none :=
    storeScan_of_all_none _ _
      (by intro k hk; obtain ⟨p, hp, rfl⟩ := List.mem_map.1 hk; exact hmiss p hp)
  have hlm : c.store (getFullKey l) = none := hmiss l hl
  refine ⟨?_, ?_, ?_⟩
  · obtain ⟨l0, rest, rfl⟩ := List.exists_cons_of_ne_nil hne
    simp only [List.map_cons] at hscan ⊢
    simp [Get, hscan]
  · simp [Get, storeScan, hlm, storeAll]
  · rw [storeAll_apply]; simp

/-- C5 witness: on the empty cache, a failing computation under `lu1`
returns the error `"boom"` and changes nothing; the retry with a
successful computation stores and returns `"ok"`. -/
theorem Get_error_not_cached_witness :
    Get (some cEmpty) (("z", some "boom") : String × Option String) [lu1] =
      ⟨.ret default (some "boom"), some cEmpty, 1⟩ ∧
    Get (some cEmpty) (("ok", none) : String × Option String) [lu1] =
      ⟨.ret "ok" none, some ⟨storeAll cEmpty.store [getFullKey lu1] "ok"⟩, 1⟩ ∧
    storeAll cEmpty.store [getFullKey lu1] "ok" (getFullKey lu1) = some "ok" :=
  Get_error_not_cached cEmpty [lu1] "z" "boom" "ok" lu1
    (by simp)
    (by intro p hp; simp only [List.mem_singleton] at hp; subst hp; rfl)
    (by simp)

/-- C3 counterexample: on `cacheAB` (which stores `"A"` under `lu1` and
`"B"` under `lu2`), a fast-path hit on `lu1` with both lookups supplied
backfills unconditionally: the pre-existing entry `"B"` under the
fullKey of `lu2` is overwritten with `"A"`, though the claim says a
fullKey already present keeps its value. -/
theorem backfill_overwrite_counterexample :
    cacheAB.store "string:user:2" = some "B" ∧
    (Get (some cacheAB) (("C", none) : String × Option String) [lu1, lu2]).calls = 0 ∧
    (Get (some cacheAB) (("C", none) : String × Option String) [lu1, lu2]).out
      = .ret "A" none ∧
    storeOf (Get (some cacheAB) (("C", none) : String × Option String) [lu1, lu2]).cache
      "string:user:2" = some "A" :=
  ⟨rfl, rfl, rfl, rfl⟩

/-- C3 amended: in a `Get` that resolves via a fast-path hit, when more
than one lookup is supplied the found value is written under **every**
supplied fullKey, overwriting entries already present (the code does
not restrict the backfill to absent keys); when a single lookup is
supplied the store is unchanged.  Every fullKey not supplied keeps its
value. -/
theorem Get_fastPath_backfill_all {V E : Type} [Inhabited V] (c : Cache V)
    (fn : V × Option E) (pre post : List Lookup) (l : Lookup) (v : V) (x : String)
    (hpre : ∀ p ∈ pre, c.store (getFullKey p) = none)
    (hl : c.store (getFullKey l) = some v) :
    storeOf (Get (some c) fn (pre ++ l :: post)).cache x =
      if 1 < (pre ++ l :: post).length ∧ x ∈ (pre ++ l :: post).map getFullKey
      then some v else c.store x := by
  have hscan : storeScan c.store ((pre ++ l :: post).map getFullKey) = some v := by
    rw [List.map_append,
      storeScan_append_of_none _ _ _ (by intro k hk; obtain ⟨p, hp, rfl⟩ := List.mem_map.1 hk; exact hpre p hp)]
    simp [storeScan, hl]
  simp only [Get, hscan]
  by_cases hlen : 1 < ((pre ++ l :: post).map getFullKey).length
  · have hlen' : 1 < (pre ++ l :: post).length := by simpa using hlen
    simp only [hlen, if_pos, storeOf, storeAll_apply, hlen', true_and]
  · have hlen' : ¬ 1 < pre.length + (post.length + 1) := by simpa using hlen
    simp [hlen, storeOf, hlen']

/-- C3 amended witness: the hit on `lu1` with `[lu1, lu2]` supplied
rewrites the slot of `lu2` to the found value `"A"`. -/
theorem Get_fastPath_backfill_all_witness :
    storeOf (Get (some cacheAB) (("C", none) : String × Option String) ([] ++ lu1 :: [lu2])).cache
        "string:user:2" =
      if 1 < ([] ++ lu1 :: [lu2]).length ∧
          "string:user:2" ∈ ([] ++ lu1 :: [lu2]).map getFullKey
      then some "A" else cacheAB.store "string:user:2" :=
  Get_fastPath_backfill_all cacheAB ("C", none) [] [lu2] lu1 "A" "string:user:2"
    (by intro p hp; cases hp)
    (by rfl)

/-- C7: `Forget` is a no-op on a context without a Cache, and on a
cached context it removes from the store exactly the entries addressed
by the supplied fullKeys: a slot is absent afterwards iff it is one of
the supplied fullKeys, and every other slot keeps its previous value
(so a sibling lookup not listed still hits). -/
theorem Forget_removes_exactly {V : Type} (c : Cache V) (lookups : List Lookup)
    (x : String) :
    Forget (none : Option (Cache V)) lookups = none ∧
    storeOf (Forget (some c) lookups) x =
      if x ∈ lookups.map getFullKey then none else c.store x := by
  refine ⟨rfl, ?_⟩
  simp only [Forget, storeOf]
  exact forgetFold_apply lookups c.store x

/-- C10: the store-key encoding is not injective: the two distinct
lookups `L(NewKey[string]("a"), "b:c")` and `L(NewKey[string]("a:b"), "c")`
share the computed store key `"string:a:b:c"`, so a value stored via
the first is returned for the second without invoking its
computation. -/
theorem fullKey_collision :
    L (NewKey "string" "a") "b:c" ≠ L (NewKey "string" "a:b") "c" ∧
    (NewKey "string" "a").name ≠ (NewKey "string" "a:b").name ∧
    (L (NewKey "string" "a") "b:c").identifier ≠ (L (NewKey "string" "a:b") "c").identifier ∧
    getFullKey (L (NewKey "string" "a") "b:c") = getFullKey (L (NewKey "string" "a:b") "c") ∧
    (Get ((Get (some cEmpty) (("W1", none) : String × Option String)
            [L (NewKey "string" "a") "b:c"]).cache)
        (("W2", none) : String × Option String) [L (NewKey "string" "a:b") "c"]).out
      = .ret "W1" none ∧
    (Get ((Get (some cEmpty) (("W1", none) : String × Option String)
            [L (NewKey "string" "a") "b:c"]).cache)
        (("W2", none) : String × Option String) [L (NewKey "string" "a:b") "c"]).calls
      = 0 := by
  refine ⟨by decide, by decide, by decide, by decide, rfl, rfl⟩

/-- The key `NewKey[string]("hooks")` of the observer scenario. -/
def kHooks : Key := NewKey "string" "hooks"

/-- First call of the observer scenario: miss on `L(kHooks, "1")`. -/
def obsCall1 : GetRes String String × List EventData :=
  GetObs (some cEmpty) ("a", none) [L kHooks "1"]

/-- Second call: hit on the same lookup. -/
def obsCall2 : GetRes String String × List EventData :=
  GetObs obsCall1.1.cache ("a", none) [L kHooks "1"]

/-- Third call: miss on the new lookup `L(kHooks, "2")`. -/
def obsCall3 : GetRes String String × List EventData :=
  GetObs obsCall2.1.cache ("b", none) [L kHooks "2"]

/-- Fourth call: hit on `L(kHooks, "2")`. -/
def obsCall4 : GetRes String String × List EventData :=
  GetObs obsCall3.1.cache ("b", none) [L kHooks "2"]

/-- Fifth call: hit on `L(kHooks, "1")`. -/
def obsCall5 : GetRes String String × List EventData :=
  GetObs obsCall4.1.cache ("a", none) [L kHooks "1"]

/-- The events the observer receives across the five calls, each batch
delivered synchronously before its `Get` returns. -/
def obsTrace : List EventData :=
  obsCall1.2 ++ obsCall2.2 ++ obsCall3.2 ++ obsCall4.2 ++ obsCall5.2

/-- C8: for the sequence Get(miss), Get(hit, same key), Get(miss, new
key), Get(hit), Get(hit) the attached observer receives exactly 2 Miss
events and 3 Hit events, in call order, each carrying the category
name and identifier of the triggering lookup. -/
theorem observer_two_misses_three_hits :
    obsTrace =
      [⟨.EventMiss, "string:hooks", "1"⟩, ⟨.EventHit, "string:hooks", "1"⟩,
       ⟨.EventMiss, "string:hooks", "2"⟩, ⟨.EventHit, "string:hooks", "2"⟩,
       ⟨.EventHit, "string:hooks", "1"⟩] ∧
    obsTrace.countP (fun ed => decide (ed.event = Event.EventMiss)) = 2 ∧
    obsTrace.countP (fun ed => decide (ed.event = Event.EventHit)) = 3 := by
  refine ⟨by decide, by decide, by decide⟩

end Callonce
